import Mathlib

/-!
Verification of the tidy-markdown rewrite engine against its specification.

The definitions below are a shallow embedding of the TypeScript sources:
  * `src/index.ts`    — heading normalizer (`fixHeaders`), content assembly
                        (`getContent`), rule resolution (`canConvert`,
                        `findConverter`)
  * `src/converters.ts` — the ordered converter table and its replacement
                        functions
  * `src/tables.ts`   — table row extraction and layout
  * `src/utils.ts`    — `delimitCode`, attribute access

JavaScript strings are modelled as Lean `String`/`List Char`; JS numbers that
hold small integers are modelled as `Int`/`Nat`; `null`/`undefined` of
optional values as `Option`; thrown exceptions as `Except String`.
-/

namespace TidyMarkdown

/-! ## Heading normalizer (src/index.ts, `fixHeaders`)

Top-level headings are represented by their depth (the digit of the `hN`
tag), in document order.  The `while` loop of `fixHeaders` is embedded as a
fuel-indexed recursion `fixLoop`; the `continue` branch (which re-examines the
offending header without advancing `i`) consumes one unit of fuel, so fuel
`2 * length + 1` corresponds to the loop's worst case of two visits per
header.  `fixLoop` returns `none` exactly when the fuel runs out, i.e. when
the source loop would still be running. -/

/-- JavaScript `x || 0` for a number `x` that is not `NaN`: yields `0` when
`x` is `0` (falsy) and `x` otherwise. -/
def jsOrZero (x : Int) : Int :=
  if x = 0 then 0 else x

/-- The inner `for` loop of `fixHeaders`: starting at the offending header,
every following header whose depth is at least the offending depth `d` is
shifted down by `gap`; the run stops at the first smaller header. -/
def shiftRun (d gap : Int) : List Int → List Int
  | [] => []
  | x :: xs => if d ≤ x then (x - gap) :: shiftRun d gap xs else x :: xs

/-- The `while` loop of `fixHeaders`.  `root` is `rootDepth`, `last` the
current `lastHeaderDepth`; the list is the still-unvisited suffix of
`topLevelHeaders` (depths).  Accepting a header appends it to the output and
advances; otherwise the gap shift is applied and the header is re-examined. -/
def fixLoop : Nat → Int → Int → List Int → Option (List Int)
  | 0, _, _, _ => none
  | _ + 1, _, _, [] => some []
  | fuel + 1, root, last, d :: rest =>
    if root ≤ d ∧ d ≤ last + 1 then
      (fixLoop fuel root d rest).map (d :: ·)
    else
      let gap := if d ≤ root then d - root else d - (last + 1)
      fixLoop fuel root last (shiftRun d gap (d :: rest))

/-- `fixHeaders` on the list of top-level heading depths.  With
`ensureFirstHeaderIsH1` the initial `lastHeaderDepth` is `0`; otherwise it is
`firstDepth - 1 || 0`.  `rootDepth = lastHeaderDepth + 1`.  The empty list is
returned unchanged (the source returns early). -/
def fixHeaders (ensureFirstHeaderIsH1 : Bool) (hs : List Int) : Option (List Int) :=
  match hs with
  | [] => some []
  | h :: _ =>
    let last : Int := if ensureFirstHeaderIsH1 then 0 else jsOrZero (h - 1)
    fixLoop (2 * hs.length + 1) (last + 1) last hs

/-- The structural constraint the normalizer establishes: scanning left to
right with previous accepted depth `last`, every depth lies in
`[root, last + 1]`. -/
def validSeq (root : Int) : Int → List Int → Prop
  | _, [] => True
  | last, d :: rest => root ≤ d ∧ d ≤ last + 1 ∧ validSeq root d rest

theorem shiftRun_length (d gap : Int) (l : List Int) :
    (shiftRun d gap l).length = l.length := by
  induction l with
  | nil => rfl
  | cons x xs ih =>
    simp only [shiftRun]
    by_cases h : d ≤ x <;> simp [h, ih]

theorem fixLoop_total (fuel : Nat) :
    ∀ (l : List Int) (root last : Int),
      root ≤ last + 1 → 2 * l.length < fuel →
      ∃ out, fixLoop fuel root last l = some out ∧ validSeq root last out := by
  induction fuel using Nat.strong_induction_on with
  | _ fuel ih =>
    intro l root last hrl hfuel
    match fuel, l with
    | 0, l => omega
    | fuel + 1, [] => exact ⟨[], rfl, trivial⟩
    | fuel + 1, d :: rest =>
      by_cases hacc : root ≤ d ∧ d ≤ last + 1
      · have hlen : 2 * rest.length < fuel := by
          simp only [List.length_cons] at hfuel; omega
        obtain ⟨out, hout, hval⟩ :=
          ih fuel (Nat.lt_succ_self fuel) rest root d (by omega) hlen
        refine ⟨d :: out, ?_, hacc.1, hacc.2, hval⟩
        simp [fixLoop, hacc, hout]
      · -- the gap shift puts the offending header at an acceptable depth,
        -- and the very next iteration accepts it
        have hne : ¬(root ≤ d ∧ d ≤ last + 1) := hacc
        set gap : Int := if d ≤ root then d - root else d - (last + 1) with hgap
        have hstep : fixLoop (fuel + 1) root last (d :: rest)
            = fixLoop fuel root last (shiftRun d gap (d :: rest)) := by
          simp only [fixLoop, if_neg hne]
        have hshift : shiftRun d gap (d :: rest) = (d - gap) :: shiftRun d gap rest := by
          simp [shiftRun]
        have hd' : root ≤ d - gap ∧ d - gap ≤ last + 1 := by
          rcases Classical.em (d ≤ root) with hle | hgt
          · constructor <;> simp [hgap, if_pos hle] <;> omega
          · have hd : last + 1 < d := by
              rcases Classical.em (root ≤ d) with h1 | h1
              · omega
              · omega
            constructor <;> simp [hgap, if_neg hgt] <;> omega
        match fuel, hfuel with
        | fuel + 1, hfuel =>
          have hlen2 : 2 * rest.length < fuel := by
            simp only [List.length_cons] at hfuel; omega
          obtain ⟨out, hout, hval⟩ :=
            ih fuel (by omega) (shiftRun d gap rest) root (d - gap) (by omega)
              (by rw [shiftRun_length]; omega)
          refine ⟨(d - gap) :: out, ?_, hd'.1, hd'.2, hval⟩
          rw [hstep, hshift]
          simp [fixLoop, hd', hout]

/-- C2: the heading normalizer maps `[h1, h3, h3]` to `[h1, h2, h2]`; with
`ensureFirstHeaderIsH1 = false` it maps `[h3, h5]` to `[h3, h4]` (root depth
3) and `[h2, h1]` to `[h2, h2]` (second heading raised to the root depth). -/
theorem headings_examples :
    fixHeaders true [1, 3, 3] = some [1, 2, 2]
      ∧ fixHeaders false [3, 5] = some [3, 4]
      ∧ fixHeaders false [2, 1] = some [2, 2] := by
  refine ⟨?_, ?_, ?_⟩ <;> rfl

/-- C3: for every finite sequence of top-level heading depths the correction
loop of `fixHeaders` terminates (within the canonical fuel `2·n + 1`, i.e. at
most two visits per header), and the resulting sequence satisfies the
constraint: each depth lies in `[rootDepth, previousAcceptedDepth + 1]`, where
`rootDepth` is `1` when the first header is forced to `h1` and the first
header's own depth otherwise. -/
theorem fixHeaders_terminates_valid (flag : Bool) (hs : List Int) :
    ∃ out, fixHeaders flag hs = some out
      ∧ (hs = [] → out = [])
      ∧ ∀ h rest, hs = h :: rest →
          let last : Int := if flag then 0 else jsOrZero (h - 1)
          validSeq (last + 1) last out := by
  match hs with
  | [] => exact ⟨[], rfl, fun _ => rfl, by intro h rest hcon; cases hcon⟩
  | h :: rest =>
    set last : Int := if flag then 0 else jsOrZero (h - 1) with hlast
    obtain ⟨out, hout, hval⟩ :=
      fixLoop_total (2 * (h :: rest).length + 1) (h :: rest) (last + 1) last
        (by omega) (by omega)
    refine ⟨out, ?_, ?_, ?_⟩
    · simp only [fixHeaders, ← hlast]
      exact hout
    · intro hcon
      cases hcon
    · intro h' rest' heq
      cases heq
      exact hval

/-! ## Inline converters: emphasis and strong (src/converters.ts)

`content.replace(/c/g, '\\c')` is modelled by `gsubChar`, which rewrites
every occurrence of the character to a replacement char sequence. -/

/-- Global single-character replacement, i.e. `s.replace(/c/g, rep)`. -/
def gsubChar (c : Char) (rep : List Char) (s : String) : String :=
  String.mk (s.data.foldr (fun ch acc => if ch = c then rep ++ acc else ch :: acc) [])

/-- `em`/`i` replacement: `_..._` by default, `*...*` (with inner `*`
escaped) when the content already contains `_`; otherwise inner `_` is
escaped (`content.indexOf('_') >= 0` modelled on the character list). -/
def emReplacement (content : String) : String :=
  if content.data.contains '_' then
    "*" ++ gsubChar '*' ['\\', '*'] content ++ "*"
  else
    "_" ++ gsubChar '_' ['\\', '_'] content ++ "_"

/-- `strong`/`b` replacement: always `**...**` with inner `*` escaped. -/
def strongReplacement (content : String) : String :=
  "**" ++ gsubChar '*' ['\\', '*'] content ++ "**"

/-- The behaviour the claim attributes to `strong`: the same
choose-by-content delimiter discipline as emphasis, with `__`/`**` as the
delimiter pair.  This is what the spec sentence describes, not what the code
does. -/
def strongClaimed (content : String) : String :=
  if content.data.contains '_' then
    "**" ++ gsubChar '*' ['\\', '*'] content ++ "**"
  else
    "__" ++ gsubChar '_' ['\\', '_'] content ++ "__"

/-- C5 counterexample: on content without `_` the code still produces
`**...**`, while the claimed choose-and-escape discipline for strong would
produce `__...__`. -/
theorem strong_counterexample : strongReplacement "a" ≠ strongClaimed "a" := by
  decide

/-- C5 (amended): emphasis content containing `_` becomes `*...*` with inner
`*` escaped and content without `_` becomes `_..._` with inner `_` escaped;
strong always becomes `**...**` with inner `*` escaped, with no
delimiter choice. -/
theorem emphasis_strong_delimiters (content : String) :
    (content.data.contains '_' = true →
      emReplacement content = "*" ++ gsubChar '*' ['\\', '*'] content ++ "*")
    ∧ (content.data.contains '_' = false →
      emReplacement content = "_" ++ gsubChar '_' ['\\', '_'] content ++ "_")
    ∧ strongReplacement content = "**" ++ gsubChar '*' ['\\', '*'] content ++ "**" := by
  refine ⟨fun h => ?_, fun h => ?_, rfl⟩
  · unfold emReplacement
    rw [h]
    simp
  · unfold emReplacement
    rw [h]
    simp

/-- Witness for C5 at concrete contents. -/
theorem emphasis_strong_delimiters_witness :
    emReplacement "a_*b" = "*a_\\*b*" ∧ emReplacement "a*b" = "_a*b_" := by
  constructor
  · exact (emphasis_strong_delimiters "a_*b").1 (by decide)
  · exact (emphasis_strong_delimiters "a*b").2.1 (by decide)

/-! ## Link converter (src/converters.ts, `a` entry)

`isValidLink` embeds the test of the regex `/.+(?:@|:\/).+/`: the string
contains an `@` or the two-character sequence `:/`, with at least one
non-newline character immediately before and after it (`.` does not match a
newline in a JavaScript regex without the `s` flag).  The scan keeps the
previous character in its first argument. -/

/-- Scan for an internal `@` or `:/` flanked by non-newline characters;
the first argument is the character preceding the current position. -/
def isValidLinkScan : Char → List Char → Bool
  | prev, '@' :: next :: rest =>
    (prev != '\n' && next != '\n') || isValidLinkScan '@' (next :: rest)
  | prev, ':' :: '/' :: next :: rest =>
    (prev != '\n' && next != '\n') || isValidLinkScan ':' ('/' :: next :: rest)
  | _, c :: rest => isValidLinkScan c rest
  | _, [] => false

/-- `isValidLink(link)`, the `marked`-derived autolink test. -/
def isValidLink (s : String) : Bool :=
  match s.data with
  | [] => false
  | c :: rest => isValidLinkScan c rest

/-- `url.replace(/^mailto:/, '')`. -/
def stripMailto (s : String) : String :=
  if ("mailto:".data).isPrefixOf s.data then String.mk (s.data.drop 7) else s

/-- JavaScript truthiness of a `string | null` value: `null` and `''` are
falsy. -/
def jsTruthy (v : Option String) : Bool :=
  match v with
  | none => false
  | some s => s != ""

/-- JavaScript `toLowerCase`, modelled on ASCII letters. -/
def jsToLowerCase (s : String) : String :=
  String.mk (s.data.map Char.toLower)

/-- A reference-table entry (src/converters.ts `Link`): `name` is the
lower-cased reference name, `title` is `null` when absent. -/
structure Link where
  name : String
  url : String
  title : Option String
deriving DecidableEq

/-- The predicate of `links.find(({url, title}) => url == refUrl && title ==
refTitle)`. -/
def linkMatches (refUrl : String) (refTitle : Option String) (l : Link) : Bool :=
  l.url == refUrl && l.title == refTitle

/-- The `a` converter's replacement (src/converters.ts).  `refUrl` is
`getAttribute(node, 'href') || ''` and `refTitle` is
`getAttribute(node, 'title')`. -/
def aReplacement (content refUrl : String) (refTitle : Option String)
    (links : List Link) : String :=
  match links.find? (linkMatches refUrl refTitle) with
  | some referenceLink =>
    if jsToLowerCase content == referenceLink.name then
      "[" ++ content ++ "]"
    else
      "[" ++ content ++ "][" ++ referenceLink.name ++ "]"
  | none =>
    if jsTruthy refTitle then
      "[" ++ content ++ "](" ++ refUrl ++ " \"" ++ refTitle.getD "" ++ "\")"
    else if isValidLink refUrl && (content == refUrl || content == stripMailto refUrl) then
      "<" ++ content ++ ">"
    else
      "[" ++ content ++ "](" ++ refUrl ++ ")"

/-- Declarative reading of the autolink regex `/.+(?:@|:\/).+/` on a
character list: somewhere in the string there is an `@` or a `:/` with a
non-newline character immediately before and after it. -/
def GoodSplit (s : List Char) : Prop :=
  ∃ a x m y b, s = a ++ x :: (m ++ y :: b) ∧ x ≠ '\n' ∧ y ≠ '\n' ∧
    (m = ['@'] ∨ m = [':', '/'])

theorem goodSplit_cons (c : Char) {l : List Char} (h : GoodSplit l) :
    GoodSplit (c :: l) := by
  obtain ⟨a, x, m, y, b, hs, hx, hy, hm⟩ := h
  exact ⟨c :: a, x, m, y, b, by rw [hs]; rfl, hx, hy, hm⟩

theorem scan_iff (prev : Char) (l : List Char) :
    isValidLinkScan prev l = true ↔ GoodSplit (prev :: l) := by
  induction prev, l using isValidLinkScan.induct with
  | case1 prev next rest ih =>
    simp only [isValidLinkScan, Bool.or_eq_true, Bool.and_eq_true, bne_iff_ne, ne_eq]
    constructor
    · rintro (⟨hp, hn⟩ | h)
      · exact ⟨[], prev, ['@'], next, rest, rfl, hp, hn, Or.inl rfl⟩
      · exact goodSplit_cons prev (ih.mp h)
    · rintro ⟨a, x, m, y, b, hs, hx, hy, hm⟩
      match a, hs with
      | [], hs =>
        rcases hm with rfl | rfl
        · simp only [List.nil_append, List.cons_append, List.cons.injEq] at hs
          obtain ⟨rfl, _, rfl, _⟩ := hs
          exact Or.inl ⟨hx, hy⟩
        · simp only [List.nil_append, List.cons_append, List.cons.injEq] at hs
          obtain ⟨rfl, h2, _⟩ := hs
          exact absurd h2 (by decide)
      | a0 :: a', hs =>
        simp only [List.cons_append, List.cons.injEq] at hs
        obtain ⟨rfl, hs⟩ := hs
        exact Or.inr (ih.mpr ⟨a', x, m, y, b, hs, hx, hy, hm⟩)
  | case2 prev next rest ih =>
    simp only [isValidLinkScan, Bool.or_eq_true, Bool.and_eq_true, bne_iff_ne, ne_eq]
    constructor
    · rintro (⟨hp, hn⟩ | h)
      · exact ⟨[], prev, [':', '/'], next, rest, rfl, hp, hn, Or.inr rfl⟩
      · exact goodSplit_cons prev (ih.mp h)
    · rintro ⟨a, x, m, y, b, hs, hx, hy, hm⟩
      match a, hs with
      | [], hs =>
        rcases hm with rfl | rfl
        · simp only [List.nil_append, List.cons_append, List.cons.injEq] at hs
          obtain ⟨rfl, h2, _⟩ := hs
          exact absurd h2 (by decide)
        · simp only [List.nil_append, List.cons_append, List.cons.injEq] at hs
          obtain ⟨rfl, _, _, rfl, _⟩ := hs
          exact Or.inl ⟨hx, hy⟩
      | a0 :: a', hs =>
        simp only [List.cons_append, List.cons.injEq] at hs
        obtain ⟨rfl, hs⟩ := hs
        exact Or.inr (ih.mpr ⟨a', x, m, y, b, hs, hx, hy, hm⟩)
  | case3 prev c rest hnotAt hnotColon ih =>
    have heq : isValidLinkScan prev (c :: rest) = isValidLinkScan c rest := by
      rw [isValidLinkScan.eq_def]
      split
      · rename_i next1 rest1 h1
        injection h1 with hc hr
        exact (hnotAt next1 rest1 hc hr).elim
      · rename_i next1 rest1 h1
        injection h1 with hc hr
        exact (hnotColon next1 rest1 hc hr).elim
      · rename_i c1 rest1 hA hB h1
        injection h1 with hc hr
        rw [hc, hr]
      · rename_i h1
        exact List.noConfusion h1
    rw [heq]
    constructor
    · intro h
      exact goodSplit_cons prev (ih.mp h)
    · rintro ⟨a, x, m, y, b, hs, hx, hy, hm⟩
      match a, hs with
      | [], hs =>
        rcases hm with rfl | rfl
        · simp only [List.nil_append, List.cons_append, List.cons.injEq] at hs
          obtain ⟨rfl, hc, hr⟩ := hs
          exact (hnotAt y b hc hr).elim
        · simp only [List.nil_append, List.cons_append, List.cons.injEq] at hs
          obtain ⟨rfl, hc, hr⟩ := hs
          exact (hnotColon y b hc hr).elim
      | a0 :: a', hs =>
        simp only [List.cons_append, List.cons.injEq] at hs
        obtain ⟨rfl, hs⟩ := hs
        exact ih.mpr ⟨a', x, m, y, b, hs, hx, hy, hm⟩
  | case4 prev =>
    simp only [isValidLinkScan]
    constructor
    · intro h
      exact absurd h (by decide)
    · rintro ⟨a, x, m, y, b, hs, hx, hy, hm⟩
      have hlen : ([prev] : List Char).length = (a ++ x :: (m ++ y :: b)).length := by
        rw [hs]
      simp only [List.length_cons, List.length_append, List.length_nil] at hlen
      rcases hm with rfl | rfl <;> simp at hlen <;> omega

/-- `isValidLink` accepts exactly the strings containing an `@` or a `:/`
flanked by non-newline characters. -/
theorem isValidLink_iff (s : String) :
    isValidLink s = true ↔ GoodSplit s.data := by
  unfold isValidLink
  match hdat : s.data with
  | [] =>
    constructor
    · intro h
      exact absurd h (by decide)
    · rintro ⟨a, x, m, y, b, hs, _, _, _⟩
      have hlen : (0 : Nat) = (a ++ x :: (m ++ y :: b)).length := by
        rw [← hs]; rfl
      simp only [List.length_append, List.length_cons] at hlen
      omega
  | c :: rest => exact scan_iff c rest

/-- Substring membership of a character sequence. -/
def containsSeq (pat : List Char) : List Char → Bool
  | [] => pat.isPrefixOf []
  | c :: rest => pat.isPrefixOf (c :: rest) || containsSeq pat rest

/-- C6 counterexample: for the url `a:/b` — which contains neither `@` nor
`://` — the code still emits the autolink form, because the source regex
requires only `:/`, not `://` as the claim states. -/
theorem autolink_counterexample :
    aReplacement "a:/b" "a:/b" none [] = "<a:/b>"
      ∧ containsSeq "://".data "a:/b".data = false
      ∧ "a:/b".data.contains '@' = false := by
  refine ⟨?_, by decide, by decide⟩
  rfl

/-- The link production as the (amended) claim words it: prefer a
reference-table entry matched by exact URL and title equality, collapsing to
`[content]` when the lower-cased text equals the reference name; otherwise
inline with title when a title exists; otherwise the autolink form exactly
when the text equals the URL (optionally minus a `mailto:` prefix) and the
URL passes the `@`-or-`:/` validity test; otherwise plain `[content](url)`. -/
def aClaimSpec (content refUrl : String) (refTitle : Option String)
    (links : List Link) : String :=
  match links.find? (fun l => l.url == refUrl && l.title == refTitle) with
  | some rl =>
    if jsToLowerCase content == rl.name then "[" ++ content ++ "]"
    else "[" ++ content ++ "][" ++ rl.name ++ "]"
  | none =>
    if jsTruthy refTitle then
      "[" ++ content ++ "](" ++ refUrl ++ " \"" ++ refTitle.getD "" ++ "\")"
    else if (content == refUrl || content == stripMailto refUrl) && isValidLink refUrl then
      "<" ++ content ++ ">"
    else
      "[" ++ content ++ "](" ++ refUrl ++ ")"

/-- C6 (amended): the link producer agrees everywhere with the claim's
case analysis, where the autolink validity test accepts exactly the URLs
containing an `@` or a `:/` with at least one non-newline character on each
side (the regex `/.+(?:@|:\/).+/`), rather than the claimed `@` or `://`. -/
theorem link_replacement_spec (content refUrl : String) (refTitle : Option String)
    (links : List Link) :
    aReplacement content refUrl refTitle links
        = aClaimSpec content refUrl refTitle links
      ∧ (isValidLink refUrl = true ↔ GoodSplit refUrl.data) := by
  refine ⟨?_, isValidLink_iff refUrl⟩
  unfold aReplacement aClaimSpec linkMatches
  cases links.find? (fun l => l.url == refUrl && l.title == refTitle) with
  | some rl => rfl
  | none =>
    by_cases ht : jsTruthy refTitle
    · simp [ht]
    · simp only [ht, if_false, Bool.false_eq_true]
      rw [Bool.and_comm]

/-- Witness for C6, instantiating the spec's link-collapsing example: an
anchor with href `http://x` and title `T` whose text equals the reference
name `x` collapses to `[x]`; differing text emits `[text][x]`. -/
theorem link_replacement_spec_witness :
    aReplacement "x" "http://x" (some "T") [⟨"x", "http://x", some "T"⟩] = "[x]"
      ∧ aReplacement "text" "http://x" (some "T") [⟨"x", "http://x", some "T"⟩]
          = "[text][x]" := by
  constructor
  · exact Eq.trans
      (link_replacement_spec "x" "http://x" (some "T") [⟨"x", "http://x", some "T"⟩]).1
      (by decide)
  · exact Eq.trans
      (link_replacement_spec "text" "http://x" (some "T") [⟨"x", "http://x", some "T"⟩]).1
      (by decide)

/-! ## DOM node view and rule resolution (src/index.ts, src/converters.ts)

A node is modelled by the observations the converter filters and replacement
functions consult: whether the htmlparser2 adapter classifies it as an
element, its tag name, its `type` string, its attribute list, the
`className`/`checked` properties read with bracket access, and a view of its
parent (element-ness, tag name, whether the parent already carries a resolved
converter and whether that converter's filter is the `fallback` function —
the identity comparison `_converter.filter === fallback` of the first
filter).  `childIndex` is `parent.childNodes.indexOf(node)`. -/

structure ParentView where
  isElem : Bool
  tagName : String
  isConvNode : Bool
  filterIsFallback : Bool
  childIndex : Int

structure Node where
  isElem : Bool
  tagName : String
  typ : String
  attrs : List (String × String)
  className : String
  checked : Bool
  parent : Option ParentView

/-- `getAttribute(node, attribute)` (src/utils.ts): the attribute's value,
with the empty string collapsed to `null` by `... || null`. -/
def getAttribute (n : Node) (attrName : String) : Option String :=
  match n.attrs.find? (fun a => a.1 == attrName) with
  | some av => if av.2 == "" then none else some av.2
  | none => none

/-- `noExtraAttributes(node, ...attributes)` (src/utils.ts). -/
def noExtraAttributes (n : Node) (attributes : List String) : Bool :=
  n.attrs.all (fun a => attributes.contains a.1)

/-- The backtick character, written by code point to keep delimiters out of
the source text. -/
def btChar : Char := Char.ofNat 96

/-- Lengths of the maximal backtick runs of a string, accumulating the
current run length. -/
def btRunsAux : Nat → List Char → List Nat
  | run, [] => if run = 0 then [] else [run]
  | run, c :: rest =>
    if c = btChar then btRunsAux (run + 1) rest
    else if run = 0 then btRunsAux 0 rest
    else run :: btRunsAux 0 rest

def backtickRuns (l : List Char) : List Nat :=
  btRunsAux 0 l

/-- The `while` loop of `delimitCode` (src/utils.ts): the delimiter grows by
one backtick while the code contains a maximal backtick run of exactly the
delimiter's length — that is when the regex ``([^`]|^)delim([^`]|$)``
matches.  Fuel bounds the growth; `code.length + 2` exceeds every run
length. -/
def growDelim (runs : List Nat) : Nat → Nat → Nat
  | 0, k => k
  | fuel + 1, k => if runs.contains k then growDelim runs fuel (k + 1) else k

/-- `delimitCode(code, delimiter)` (src/utils.ts). -/
def delimitCode (code delimiter : String) : String :=
  let k := growDelim (backtickRuns code.data) (code.length + 2) delimiter.length
  let d := String.mk (List.replicate k btChar)
  let code := if code.data.head? = some btChar then " " ++ code else code
  let code := if code.data.getLast? = some btChar then code ++ " " else code
  d ++ code ++ d

/-- Non-whitespace head, the `\S` requirement after the dash. -/
def hasNonspaceHead : List Char → Bool
  | c :: _ => !c.isWhitespace
  | [] => false

/-- One-position match of `CODE_HIGHLIGHT_REGEX =
/(?:highlight highlight|lang(?:uage)?)-(\S+)/`. -/
def chMatchAt (l : List Char) : Bool :=
  ("highlight highlight-".data.isPrefixOf l && hasNonspaceHead (l.drop 20))
    || ("language-".data.isPrefixOf l && hasNonspaceHead (l.drop 9))
    || ("lang-".data.isPrefixOf l && hasNonspaceHead (l.drop 5))

def chScan : List Char → Bool
  | [] => false
  | c :: rest => chMatchAt (c :: rest) || chScan rest

/-- `CODE_HIGHLIGHT_REGEX.test(s)`. -/
def codeHighlightTest (s : String) : Bool :=
  chScan s.data

/-- `parseInt(node.tagName.charAt(1), 10)` for the heading converter; a
non-digit (`NaN`) is mapped to `0`, unreachable through the `h1`–`h6`
filter. -/
def headingLevel (tag : String) : Nat :=
  match tag.data.drop 1 with
  | c :: _ => if c.isDigit then c.toNat - 48 else 0
  | [] => 0

/-- The `img` converter's replacement (src/converters.ts). -/
def imgReplacement (alt refUrl : String) (refTitle : Option String)
    (links : List Link) : String :=
  match links.find? (linkMatches refUrl refTitle) with
  | some referenceLink =>
    if jsToLowerCase alt == referenceLink.name then
      "![" ++ alt ++ "]"
    else
      "![" ++ alt ++ "][" ++ referenceLink.name ++ "]"
  | none =>
    if jsTruthy refTitle then
      "![" ++ alt ++ "](" ++ refUrl ++ " \"" ++ refTitle.getD "" ++ "\")"
    else
      "![" ++ alt ++ "](" ++ refUrl ++ ")"

/-- `ConverterFilter`: the TypeScript union `string | string[] | predicate`.
`other` stands for any runtime value outside the union, reachable only from
untyped JavaScript, which `canConvert` rejects with a `TypeError`. -/
inductive ConverterFilter where
  | str (s : String)
  | arr (ss : List String)
  | fn (p : Node → Bool)
  | other

structure Converter where
  filter : ConverterFilter
  surroundingBlankLines : Bool
  trailingWhitespace : Option String
  replacement : String → Node → List Link → String

/-- External collaborators used by some replacement bodies: the npm `indent`
function, and the three replacements that need tree structure or the parse5
serializer (`table`, `pre`, the final fallback).  They are taken as
parameters; no claim depends on their output. -/
structure Externals where
  indent : String → String → String
  tableRepl : String → Node → List Link → String
  preRepl : String → Node → List Link → String
  fallbackRepl : String → Node → List Link → String

/-- The `checkbox` entry's filter: `node.type === 'checkbox'` with an `li`
element parent. -/
def checkboxFilter (n : Node) : Bool :=
  n.typ == "checkbox" &&
    match n.parent with
    | some p => p.isElem && p.tagName == "li"
    | none => false

/-- The `checkbox` entry's replacement, ignoring the assembled content. -/
def checkboxReplacement (node : Node) : String :=
  (if node.checked then "[x]" else "[ ]") ++ " "

/-- The `checkbox` converter entry. -/
def checkboxConverter : Converter :=
  { filter := ConverterFilter.fn checkboxFilter,
    surroundingBlankLines := false, trailingWhitespace := none,
    replacement := fun _ node _ => checkboxReplacement node }

/-- `canConvert(node, filter)` (src/index.ts). -/
def canConvert (node : Node) : ConverterFilter → Except String Bool
  | .str s => .ok (node.isElem && s == node.tagName)
  | .arr ss => .ok (node.isElem && ss.contains node.tagName)
  | .fn p => .ok (p node)
  | .other => .error "TypeError: `filter` needs to be a string, array, or function"

/-- The ordered converter table (src/converters.ts), in declaration order.
The first entry's tree mutation (`indentChildren`) and the externally
implemented replacements are noted in `Externals`; every filter is embedded
exactly. -/
def Converters (ext : Externals) : List Converter :=
  [ { filter := .fn (fun n =>
        match n.parent with
        | some p => p.isConvNode && p.filterIsFallback
        | none => false),
      surroundingBlankLines := false, trailingWhitespace := none,
      replacement := fun _ _ _ => "" },
    { filter := .str "p",
      surroundingBlankLines := true, trailingWhitespace := none,
      replacement := fun content _ _ => content },
    { filter := .arr ["td", "th"],
      surroundingBlankLines := false, trailingWhitespace := none,
      replacement := fun content _ _ => content },
    { filter := .arr ["tbody", "thead", "tr"],
      surroundingBlankLines := false, trailingWhitespace := none,
      replacement := fun _ _ _ => "" },
    { filter := .arr ["del", "s", "strike"],
      surroundingBlankLines := false, trailingWhitespace := none,
      replacement := fun content _ _ => "~~" ++ content ++ "~~" },
    { filter := .arr ["em", "i"],
      surroundingBlankLines := false, trailingWhitespace := none,
      replacement := fun content _ _ => emReplacement content },
    { filter := .arr ["strong", "b"],
      surroundingBlankLines := false, trailingWhitespace := none,
      replacement := fun content _ _ => strongReplacement content },
    { filter := .str "br",
      surroundingBlankLines := false, trailingWhitespace := some "\n",
      replacement := fun _ _ _ => "<br>" },
    { filter := .str "a",
      surroundingBlankLines := false, trailingWhitespace := none,
      replacement := fun content node links =>
        aReplacement content ((getAttribute node "href").getD "")
          (getAttribute node "title") links },
    { filter := .fn (fun n =>
        n.isElem && n.tagName == "img" && noExtraAttributes n ["alt", "src", "title"]),
      surroundingBlankLines := false, trailingWhitespace := none,
      replacement := fun _ node links =>
        imgReplacement ((getAttribute node "alt").getD "")
          ((getAttribute node "src").getD "") (getAttribute node "title") links },
    checkboxConverter,
    { filter := .str "table",
      surroundingBlankLines := true, trailingWhitespace := none,
      replacement := ext.tableRepl },
    { filter := .str "pre",
      surroundingBlankLines := true, trailingWhitespace := none,
      replacement := ext.preRepl },
    { filter := .str "code",
      surroundingBlankLines := false, trailingWhitespace := none,
      replacement := fun content node _ =>
        let parentTag : Option String :=
          match node.parent with
          | some p => if p.isElem then some p.tagName else none
          | none => none
        if parentTag = some "pre" then content
        else delimitCode content (String.mk [btChar]) },
    { filter := .fn (fun n =>
        n.isElem && n.tagName == "div" && codeHighlightTest n.className),
      surroundingBlankLines := true, trailingWhitespace := none,
      replacement := fun content _ _ => content },
    { filter := .arr ["h1", "h2", "h3", "h4", "h5", "h6"],
      surroundingBlankLines := true, trailingWhitespace := none,
      replacement := fun content node _ =>
        String.mk (List.replicate (headingLevel node.tagName) '#') ++ " " ++ content },
    { filter := .str "hr",
      surroundingBlankLines := true, trailingWhitespace := none,
      replacement := fun _ _ _ => String.mk (List.replicate 80 '-') },
    { filter := .str "blockquote",
      surroundingBlankLines := true, trailingWhitespace := none,
      replacement := fun content _ _ => ext.indent content "> " },
    { filter := .str "li",
      surroundingBlankLines := false, trailingWhitespace := some "\n",
      replacement := fun content node _ =>
        let content :=
          if content.data.contains '\n' then (ext.indent content "  ").trimLeft
          else content
        let pfx :=
          match node.parent with
          | some p =>
            if p.isElem && p.tagName == "ol" then toString (p.childIndex + 1) ++ ". "
            else "- "
          | none => "- "
        pfx ++ content },
    { filter := .arr ["ul", "ol"],
      surroundingBlankLines := true, trailingWhitespace := none,
      replacement := fun content _ _ => content },
    { filter := .str "_comment",
      surroundingBlankLines := false, trailingWhitespace := none,
      replacement := fun content _ _ => "<!-- " ++ content ++ " -->" },
    { filter := .fn (fun _ => true),
      surroundingBlankLines := true, trailingWhitespace := none,
      replacement := ext.fallbackRepl } ]

/-- The monadic first-match search of `Converters.find(converter =>
canConvert(node, converter.filter))`; a thrown `TypeError` from an invalid
filter propagates. -/
def findC (node : Node) : List Converter → Except String (Option Converter)
  | [] => .ok none
  | c :: rest =>
    match canConvert node c.filter with
    | .error e => .error e
    | .ok true => .ok (some c)
    | .ok false => findC node rest

/-- `findConverter(node)` (src/index.ts). -/
def findConverter (ext : Externals) (node : Node) : Except String (Option Converter) :=
  findC node (Converters ext)

/-- `FirstMatch node l c`: `c` is the first entry of `l` whose filter
matches `node`, every earlier filter having evaluated to `false`. -/
inductive FirstMatch (node : Node) : List Converter → Converter → Prop where
  | head {c : Converter} {rest : List Converter} :
      canConvert node c.filter = .ok true → FirstMatch node (c :: rest) c
  | tail {c c0 : Converter} {rest : List Converter} :
      canConvert node c0.filter = .ok false → FirstMatch node rest c →
      FirstMatch node (c0 :: rest) c

/-- A filter that is one of the three typed shapes (never `other`). -/
def properFilterB : ConverterFilter → Bool
  | .other => false
  | _ => true

theorem canConvert_proper (node : Node) (f : ConverterFilter)
    (h : properFilterB f = true) : ∃ b, canConvert node f = .ok b := by
  cases f with
  | str s => exact ⟨_, rfl⟩
  | arr ss => exact ⟨_, rfl⟩
  | fn p => exact ⟨_, rfl⟩
  | other => exact absurd h (by decide)

theorem findC_first (node : Node) (l : List Converter)
    (hprop : ∀ c ∈ l, properFilterB c.filter = true)
    (hlast : ∃ clast, l.getLast? = some clast ∧ canConvert node clast.filter = .ok true) :
    ∃ c, findC node l = .ok (some c) ∧ FirstMatch node l c := by
  induction l with
  | nil =>
    obtain ⟨clast, hcl, _⟩ := hlast
    simp at hcl
  | cons c rest ih =>
    obtain ⟨b, hb⟩ := canConvert_proper node c.filter (hprop c (List.mem_cons_self c rest))
    cases b with
    | true =>
      refine ⟨c, ?_, FirstMatch.head hb⟩
      simp [findC, hb]
    | false =>
      match rest, hlast with
      | [], ⟨clast, hcl, hcc⟩ =>
        simp only [List.getLast?_singleton, Option.some.injEq] at hcl
        rw [← hcl] at hcc
        rw [hcc] at hb
        cases hb
      | r0 :: rest', hlast =>
        obtain ⟨c', hc', hfm⟩ := ih
          (fun c hc => hprop c (List.mem_cons_of_mem _ hc))
          (by
            obtain ⟨clast, hcl, hcc⟩ := hlast
            refine ⟨clast, ?_, hcc⟩
            rw [List.getLast?_cons_cons] at hcl
            exact hcl)
        refine ⟨c', ?_, FirstMatch.tail hb hfm⟩
        rw [← hc']
        simp [findC, hb]

/-- C4: rule resolution tries the converter filters in declaration order and
returns the first match; a string filter tests tag-name equality on
elements, an array filter tests membership, a function filter applies the
predicate, and any other filter shape raises a `TypeError`; the final entry
of the table is a catch-all whose predicate is constantly true, so every
node resolves to some rule. -/
theorem rule_resolution_total (ext : Externals) (node : Node) :
    (∃ c, findConverter ext node = .ok (some c) ∧ FirstMatch node (Converters ext) c)
      ∧ (∃ clast, (Converters ext).getLast? = some clast
          ∧ canConvert node clast.filter = .ok true)
      ∧ (∀ s, canConvert node (.str s) = .ok (node.isElem && s == node.tagName))
      ∧ (∀ ss, canConvert node (.arr ss) = .ok (node.isElem && ss.contains node.tagName))
      ∧ (∀ p, canConvert node (.fn p) = .ok (p node))
      ∧ canConvert node .other
          = .error "TypeError: `filter` needs to be a string, array, or function" := by
  have hall : (Converters ext).all (fun c => properFilterB c.filter) = true := rfl
  have hprop : ∀ c ∈ Converters ext, properFilterB c.filter = true :=
    fun c hc => List.all_eq_true.mp hall c hc
  have hlast : ∃ clast, (Converters ext).getLast? = some clast
      ∧ canConvert node clast.filter = .ok true := by
    refine ⟨{ filter := .fn (fun _ => true), surroundingBlankLines := true,
              trailingWhitespace := none, replacement := ext.fallbackRepl }, rfl, rfl⟩
  exact ⟨findC_first node (Converters ext) hprop hlast, hlast,
    fun _ => rfl, fun _ => rfl, fun _ => rfl, rfl⟩

/-- C10: a node whose `type` is `'checkbox'` and whose parent is an `li`
element resolves to the checkbox converter — provided, as in the real
pipeline, that its tag name is the adapter's `input` (so no earlier
tag-name filter can match) and the parent's resolved converter is not the
fallback (the parent `li` always resolves to a named rule) — and that
converter's replacement ignores the assembled content entirely, producing
`"[x] "` when the `checked` flag is set and `"[ ] "` otherwise. -/
theorem checkbox_rule (ext : Externals) (node : Node)
    (htype : node.typ = "checkbox")
    (hpar : ∃ p, node.parent = some p ∧ p.isElem = true ∧ p.tagName = "li"
        ∧ p.filterIsFallback = false)
    (htag : node.tagName = "input") :
    ∃ c, findConverter ext node = .ok (some c)
      ∧ ∀ content links, c.replacement content node links
          = if node.checked then "[x] " else "[ ] " := by
  obtain ⟨p, hp, hpe, hpt, hpf⟩ := hpar
  refine ⟨checkboxConverter, ?_, ?_⟩
  · simp [findConverter, Converters, findC, canConvert, checkboxConverter,
      checkboxFilter, htype, htag, hp, hpe, hpt, hpf]
  · intro content links
    cases hch : node.checked <;>
      simp [checkboxConverter, checkboxReplacement, hch]

/-- A trivial instantiation of the external collaborators, used only to
state closed witnesses. -/
def dummyExternals : Externals :=
  ⟨fun s _ => s, fun c _ _ => c, fun c _ _ => c, fun c _ _ => c⟩

/-- A checked task-list checkbox node inside an `li`. -/
def sampleCheckboxNode : Node :=
  ⟨false, "input", "checkbox", [], "", true, some ⟨true, "li", true, false, 0⟩⟩

/-- Witness for C10 at a concrete checked checkbox node. -/
theorem checkbox_rule_witness :
    ∃ c, findConverter dummyExternals sampleCheckboxNode = .ok (some c)
      ∧ ∀ content links, c.replacement content sampleCheckboxNode links = "[x] " := by
  obtain ⟨c, hc, hr⟩ :=
    checkbox_rule dummyExternals sampleCheckboxNode rfl ⟨_, rfl, rfl, rfl, rfl⟩ rfl
  exact ⟨c, hc, fun content links => (hr content links).trans (by rfl)⟩

/-! ## Content assembly (src/index.ts, `getContent`)

A child of the node being assembled is either an already-processed converter
node (carrying `_replacement` and the optional `_whitespace` pair set by
`process`) or a text node whose `cleanText` result is carried directly; any
other child makes `getChildText` throw and cannot reach the separator logic.
Element-ness and the tag name are kept for the `<br>` special cases. -/

inductive ChildItem where
  | conv (isElem : Bool) (tagName : String) (ws : Option (String × String)) (repl : String)
  | txt (content : String)
deriving DecidableEq

/-- `getChildText(child)`: `_replacement` for converter nodes, the cleaned
text for text nodes. -/
def childText : ChildItem → String
  | .conv _ _ _ repl => repl
  | .txt content => content

/-- `isConverterNode(child) && child._whitespace?.leading || ''`. -/
def childLeading : ChildItem → String
  | .conv _ _ ws _ => (ws.map Prod.fst).getD ""
  | .txt _ => ""

/-- `isConverterNode(prev) && prev._whitespace?.trailing || ''`. -/
def childTrailing : ChildItem → String
  | .conv _ _ ws _ => (ws.map Prod.snd).getD ""
  | .txt _ => ""

/-- `isElement(child) && child.tagName === 'br'`. -/
def isBrChild : ChildItem → Bool
  | .conv isElem tag _ _ => isElem && tag == "br"
  | .txt _ => false

/-- JavaScript `trimStart`, on the character list. -/
def jsTrimStart (s : String) : String :=
  String.mk (s.data.dropWhile Char.isWhitespace)

/-- JavaScript `trimEnd`, on the character list. -/
def jsTrimEnd (s : String) : String :=
  String.mk ((s.data.reverse.dropWhile Char.isWhitespace).reverse)

/-- Length of the newline run at the head of the list. -/
def nlRun : List Char → Nat
  | '\n' :: rest => nlRun rest + 1
  | _ => 0

/-- `.replace(/\n{3,}/, '\n\n')`: only the first (leftmost, maximal) run of
three or more newlines is collapsed to two — `replace` without the `g` flag
rewrites a single match. -/
def collapseFirstNl : List Char → List Char
  | [] => []
  | c :: rest =>
    if c = '\n' ∧ 3 ≤ nlRun (c :: rest) then
      '\n' :: '\n' :: (c :: rest).drop (nlRun (c :: rest))
    else
      c :: collapseFirstNl rest

def jsCollapseNl (s : String) : String :=
  String.mk (collapseFirstNl s.data)

/-- The `forEach` body of `getContent` as a left fold over the children,
carrying the accumulated `content` and `previousSibling`.  Note the source
appends the *current* child's leading whitespace followed by the *previous*
sibling's trailing whitespace. -/
def getContentAux : String → Option ChildItem → List ChildItem → String
  | content, _, [] => content
  | content, prev, child :: rest =>
    let childTxt := childText child
    let content := if isBrChild child then jsTrimEnd content else content
    let childTxt :=
      if (prev.map isBrChild).getD false then jsTrimStart childTxt else childTxt
    let content :=
      match prev with
      | some p => content ++ jsCollapseNl (childLeading child ++ childTrailing p)
      | none => content
    getContentAux (content ++ childTxt) (some child) rest

/-- `getContent(node)` for a parent node, over its children. -/
def getContent (children : List ChildItem) : String :=
  getContentAux "" none children

/-- Collapse of *every* run of three or more newlines (what the claim's
"any run" wording requires, i.e. a global replace), scanning with the
length of the pending newline run. -/
def collapseAllAux : Nat → List Char → List Char
  | run, [] => List.replicate (if 3 ≤ run then 2 else run) '\n'
  | run, c :: rest =>
    if c = '\n' then collapseAllAux (run + 1) rest
    else List.replicate (if 3 ≤ run then 2 else run) '\n' ++ c :: collapseAllAux 0 rest

def collapseAllNl (l : List Char) : List Char :=
  collapseAllAux 0 l

/-- The assembly the claim describes, verbatim: between adjacent siblings the
separator is the previous sibling's trailing whitespace followed by the
current child's leading whitespace, with every long newline run collapsed. -/
def claimTailOrig (prev : ChildItem) : List ChildItem → String
  | [] => ""
  | c :: rest =>
    String.mk (collapseAllNl (childTrailing prev ++ childLeading c).data)
      ++ childText c ++ claimTailOrig c rest

def getContentClaimOrig : List ChildItem → String
  | [] => ""
  | c :: rest => childText c ++ claimTailOrig c rest

/-- C9 counterexample.  First pair: previous trailing `"\n"`, current leading
`" "` — the code inserts `" \n"` (leading before trailing), the claim
prescribes `"\n "`.  Second pair: a separator containing two newline runs —
the code collapses only the first run of three or more newlines, the claim
prescribes collapsing every such run. -/
theorem content_assembly_counterexample :
    getContent
        [ChildItem.conv true "x" (some ("", "\n")) "A",
         ChildItem.conv true "y" (some (" ", "")) "B"]
      ≠ getContentClaimOrig
        [ChildItem.conv true "x" (some ("", "\n")) "A",
         ChildItem.conv true "y" (some (" ", "")) "B"]
    ∧ getContent
        [ChildItem.conv true "x" (some ("", "")) "A",
         ChildItem.conv true "y" (some ("\n\n\n \n\n\n", "")) "B"]
      ≠ getContentClaimOrig
        [ChildItem.conv true "x" (some ("", "")) "A",
         ChildItem.conv true "y" (some ("\n\n\n \n\n\n", "")) "B"] := by
  constructor
  · decide
  · decide

/-- The separator the code actually inserts between two siblings. -/
def sepSpec (prev child : ChildItem) : String :=
  jsCollapseNl (childLeading child ++ childTrailing prev)

def specTail (prev : ChildItem) : List ChildItem → String
  | [] => ""
  | c :: rest => sepSpec prev c ++ childText c ++ specTail c rest

/-- The amended assembly: child texts in order, joined by `sepSpec`. -/
def getContentSpec : List ChildItem → String
  | [] => ""
  | c :: rest => childText c ++ specTail c rest

theorem str_empty_append (s : String) : "" ++ s = s := by
  cases s
  rfl

theorem getContentAux_spec (l : List ChildItem) :
    ∀ (acc : String) (prev : ChildItem),
      (∀ c ∈ l, isBrChild c = false) → isBrChild prev = false →
      getContentAux acc (some prev) l = acc ++ specTail prev l := by
  induction l with
  | nil =>
    intro acc prev _ _
    simp [getContentAux, specTail]
  | cons c rest ih =>
    intro acc prev hl hprev
    have hc : isBrChild c = false := hl c (List.mem_cons_self c rest)
    have hrest : ∀ c' ∈ rest, isBrChild c' = false :=
      fun c' hc' => hl c' (List.mem_cons_of_mem _ hc')
    simp only [getContentAux, hc, hprev, Option.map_some', Option.getD_some,
      Bool.false_eq_true, if_false]
    rw [ih _ c hrest hc]
    simp only [specTail, sepSpec]
    simp [String.append_assoc]

/-- C9 (amended): during content assembly, when no `<br>` child intervenes,
the assembled content is the children's texts joined, between every two
adjacent siblings, by the *current child's leading whitespace followed by the
previous sibling's trailing whitespace*, with the *first* run of three or
more consecutive newlines in that concatenation collapsed to exactly two
newlines. -/
theorem content_assembly_spec (children : List ChildItem)
    (hnb : ∀ c ∈ children, isBrChild c = false) :
    getContent children = getContentSpec children := by
  match children with
  | [] => rfl
  | c :: rest =>
    have hc : isBrChild c = false := hnb c (List.mem_cons_self c rest)
    have hrest : ∀ c' ∈ rest, isBrChild c' = false :=
      fun c' hc' => hnb c' (List.mem_cons_of_mem _ hc')
    show getContentAux "" none (c :: rest) = getContentSpec (c :: rest)
    simp only [getContentAux, hc, Option.map_none', Option.getD_none,
      Bool.false_eq_true, if_false]
    rw [getContentAux_spec rest ("" ++ childText c) c hrest hc]
    simp only [getContentSpec]
    rw [str_empty_append]

/-- Witness for C9 on a concrete two-child list. -/
theorem content_assembly_spec_witness :
    getContent [ChildItem.conv true "em" (some (" ", "")) "_a_", ChildItem.txt "b"]
      = getContentSpec [ChildItem.conv true "em" (some (" ", "")) "_a_",
          ChildItem.txt "b"] :=
  content_assembly_spec
    [ChildItem.conv true "em" (some (" ", "")) "_a_", ChildItem.txt "b"]
    (by decide)

/-! ## Table extraction (src/tables.ts)

`Alignment` is the string union `'left' | 'center' | 'right'`; a missing
`text-align` declaration is `null`, modelled as `none`. -/

inductive Alignment where
  | left
  | center
  | right
deriving DecidableEq

/-- One-position match of `/text-align:\s*(right|left|center)/`: the literal
`text-align:`, then whitespace, then the first alternative that fits. -/
def taMatchAt (l : List Char) : Option Alignment :=
  if "text-align:".data.isPrefixOf l then
    let r := (l.drop 11).dropWhile Char.isWhitespace
    if "right".data.isPrefixOf r then some .right
    else if "left".data.isPrefixOf r then some .left
    else if "center".data.isPrefixOf r then some .center
    else none
  else none

def taScan : List Char → Option Alignment
  | [] => none
  | c :: rest =>
    match taMatchAt (c :: rest) with
    | some a => some a
    | none => taScan rest

/-- `getCellAlignment(node)`: the capture of the `text-align` regex on the
`style` attribute, or `null`. -/
def getCellAlignment (style : Option String) : Option Alignment :=
  match style with
  | some s => taScan s.data
  | none => none

/-- The alignment-consistency loop of `extractRows` (src/tables.ts lines
84–97) on one row: position `i` for the error message, the accumulated
column alignments, and the row's alignments.  A column index beyond the
accumulator is pushed (first row holding a cell there); an existing entry
must be equal or the conversion fails. -/
def mergeAligns (i : Nat) :
    List (Option Alignment) → List (Option Alignment) →
    Except String (List (Option Alignment))
  | acc, [] => .ok acc
  | [], a :: rest => (mergeAligns (i + 1) [] rest).map (a :: ·)
  | b :: accR, a :: rest =>
    if a = b then (mergeAligns (i + 1) accR rest).map (b :: ·)
    else .error ("Alignment in a table column " ++ toString i ++ " is not consistent")

/-- The alignment accumulation over the rows in traversal order. -/
def alignFold (rows : List (List (Option Alignment))) :
    Except String (List (Option Alignment)) :=
  rows.foldlM (fun acc r => mergeAligns 0 acc r) []

/-- A table subtree: elements with tag, attributes, the optional
`_replacement` annotation (present exactly on converter nodes) and children;
text nodes; comment nodes. -/
inductive TNode where
  | elem (tag : String) (attrs : List (String × String)) (repl : Option String)
      (children : List TNode)
  | text (data : String)
  | comment (data : String)

mutual

def tnodeSize : TNode → Nat
  | .elem _ _ _ children => 1 + tlistSize children
  | .text _ => 1
  | .comment _ => 1

def tlistSize : List TNode → Nat
  | [] => 0
  | c :: rest => tnodeSize c + tlistSize rest

end

def tchildren : TNode → List TNode
  | .elem _ _ _ children => children
  | _ => []

/-- The `style` attribute with `|| null` empty-value collapsing, as
`getAttribute` reads it. -/
def tAttr (attrs : List (String × String)) (name : String) : Option String :=
  match attrs.find? (fun a => a.1 == name) with
  | some av => if av.2 == "" then none else some av.2
  | none => none

/-- `extractColumns(row)`: `th`/`td` children that carry a `_replacement`
contribute their text and alignment; a text child aborts with the source's
message (`isElement(column) && column.tagName` prints `false` there); other
children are skipped. -/
def extractColumns : List TNode → Except String (List String × List (Option Alignment))
  | [] => .ok ([], [])
  | c :: rest =>
    match c with
    | .elem tag attrs repl _ =>
      if tag == "th" || tag == "td" then
        match repl with
        | some r =>
          (extractColumns rest).map
            (fun p => (r :: p.1, getCellAlignment (tAttr attrs "style") :: p.2))
        | none => extractColumns rest
      else extractColumns rest
    | .text _ => .error "Cannot handle false in table row"
    | .comment _ => extractColumns rest

/-- One dequeued node's children in the BFS of `extractRows`: `tr` children
are extracted and merged immediately, other element children are enqueued
(returned in order), the rest are skipped. -/
def handleChildren :
    List TNode → List (Option Alignment) → List (List String) →
    Except String (List TNode × List (Option Alignment) × List (List String))
  | [], aligns, rows => .ok ([], aligns, rows)
  | c :: rest, aligns, rows =>
    match c with
    | .elem tag _ _ children =>
      if tag == "tr" then
        match extractColumns children with
        | .error e => .error e
        | .ok colsRals =>
          match mergeAligns 0 aligns colsRals.2 with
          | .error e => .error e
          | .ok aligns' => handleChildren rest aligns' (rows ++ [colsRals.1])
      else
        match handleChildren rest aligns rows with
        | .error e => .error e
        | .ok qar => .ok (c :: qar.1, qar.2.1, qar.2.2)
    | _ => handleChildren rest aligns rows

theorem handleChildren_size (cs : List TNode) :
    ∀ (aligns : List (Option Alignment)) (rows : List (List String)) q a' r',
      handleChildren cs aligns rows = .ok (q, a', r') → tlistSize q ≤ tlistSize cs := by
  induction cs with
  | nil =>
    intro aligns rows q a' r' h
    simp only [handleChildren] at h
    cases h
    simp [tlistSize]
  | cons c rest ih =>
    intro aligns rows q a' r' h
    match c, h with
    | .elem tag attrs repl children, h =>
      simp only [handleChildren] at h
      by_cases htr : (tag == "tr") = true
      · rw [if_pos htr] at h
        match hec : extractColumns children with
        | .error e =>
          simp only [hec] at h
          cases h
        | .ok colsRals =>
          simp only [hec] at h
          match hma : mergeAligns 0 aligns colsRals.2 with
          | .error e =>
            simp only [hma] at h
            cases h
          | .ok aligns' =>
            simp only [hma] at h
            have := ih aligns' (rows ++ [colsRals.1]) q a' r' h
            simp only [tlistSize]
            omega
      · rw [if_neg htr] at h
        match hhc : handleChildren rest aligns rows with
        | .error e =>
          simp only [hhc] at h
          cases h
        | .ok qar =>
          simp only [hhc] at h
          cases h
          have := ih aligns rows qar.1 qar.2.1 qar.2.2 (by rw [hhc])
          simp only [tlistSize]
          omega
    | .text d, h =>
      simp only [handleChildren] at h
      have := ih aligns rows q a' r' h
      simp only [tlistSize, tnodeSize]
      omega
    | .comment d, h =>
      simp only [handleChildren] at h
      have := ih aligns rows q a' r' h
      simp only [tlistSize, tnodeSize]
      omega

theorem tlistSize_append (l1 l2 : List TNode) :
    tlistSize (l1 ++ l2) = tlistSize l1 + tlistSize l2 := by
  induction l1 with
  | nil => simp [tlistSize]
  | cons c rest ih =>
    simp only [List.cons_append, tlistSize, List.append_eq] at ih ⊢
    omega

theorem tchildren_size (t : TNode) : tlistSize (tchildren t) < tnodeSize t := by
  cases t with
  | elem tag attrs repl children => simp [tchildren, tnodeSize]
  | text d => simp [tchildren, tnodeSize, tlistSize]
  | comment d => simp [tchildren, tnodeSize, tlistSize]

/-- The breadth-first `while` loop of `extractRows`: dequeue a node, handle
its children, append the newly found elements to the queue. -/
def extractLoop :
    List TNode → List (Option Alignment) → List (List String) →
    Except String (List (Option Alignment) × List (List String))
  | [], aligns, rows => .ok (aligns, rows)
  | t :: rest, aligns, rows =>
    match h : handleChildren (tchildren t) aligns rows with
    | .error e => .error e
    | .ok qar => extractLoop (rest ++ qar.1) qar.2.1 qar.2.2
termination_by q _ _ => tlistSize q
decreasing_by
  have hq : tlistSize qar.1 ≤ tlistSize (tchildren c) :=
    handleChildren_size (tchildren c) aligns rows qar.1 qar.2.1 qar.2.2 (by rw [h])
  have ht := tchildren_size c
  simp only [tlistSize_append, tlistSize]
  omega

/-- The trailing-alignment trim: `while (alignments.length > rows[0].length
&& alignments.slice(-1)[0] === null) alignments.pop()`. -/
def trimAligns (hdrLen : Nat) (aligns : List (Option Alignment)) :
    List (Option Alignment) :=
  if aligns.length > hdrLen ∧ aligns.getLast? = some none then
    trimAligns hdrLen aligns.dropLast
  else aligns
termination_by aligns.length
decreasing_by
  rename_i hcond
  rw [List.length_dropLast]
  omega

/-- `extractRows(node)` (src/tables.ts).  An empty table makes the source
crash on `rows[0].length`; that `TypeError` is modelled as an error value. -/
def extractRows (t : TNode) :
    Except String (List (Option Alignment) × List (List String)) :=
  match extractLoop [t] [] [] with
  | .error e => .error e
  | .ok ar =>
    match ar.2.head? with
    | none => .error "TypeError: cannot read length of undefined"
    | some hdr => .ok (trimAligns hdr.length ar.1, ar.2)

theorem mergeAligns_ok (row : List (Option Alignment)) :
    ∀ (i : Nat) (acc res : List (Option Alignment)),
      mergeAligns i acc row = .ok res →
      acc <+: res ∧ res.length = max acc.length row.length
        ∧ ∀ j (hj : j < row.length) (hres : j < res.length),
            res.get ⟨j, hres⟩ = row.get ⟨j, hj⟩ := by
  induction row with
  | nil =>
    intro i acc res h
    simp only [mergeAligns] at h
    cases h
    refine ⟨List.prefix_refl _, by simp, ?_⟩
    intro j hj
    simp at hj
  | cons a rest ih =>
    intro i acc res h
    match acc, h with
    | [], h =>
      simp only [mergeAligns] at h
      match hrec : mergeAligns (i + 1) [] rest with
      | .error e =>
        rw [hrec] at h
        cases h
      | .ok res' =>
        rw [hrec] at h
        simp only [Except.map] at h
        cases h
        obtain ⟨_, hlen, hget⟩ := ih (i + 1) [] res' hrec
        refine ⟨List.nil_prefix, ?_, ?_⟩
        · simp only [List.length_cons, List.length_nil] at hlen ⊢
          omega
        · intro j hj hres
          cases j with
          | zero => rfl
          | succ j =>
            exact hget j (by simpa using hj) (by simpa using hres)
    | b :: accR, h =>
      simp only [mergeAligns] at h
      by_cases hab : a = b
      · rw [if_pos hab] at h
        match hrec : mergeAligns (i + 1) accR rest with
        | .error e =>
          rw [hrec] at h
          cases h
        | .ok res' =>
          rw [hrec] at h
          simp only [Except.map] at h
          cases h
          obtain ⟨hpre, hlen, hget⟩ := ih (i + 1) accR res' hrec
          obtain ⟨t, ht⟩ := hpre
          refine ⟨⟨t, by rw [← ht]; rfl⟩, ?_, ?_⟩
          · simp only [List.length_cons] at hlen ⊢
            omega
          · intro j hj hres
            cases j with
            | zero => exact hab.symm
            | succ j =>
              exact hget j (by simpa using hj) (by simpa using hres)
      · rw [if_neg hab] at h
        cases h

theorem prefix_get {l1 l2 : List (Option Alignment)} (h : l1 <+: l2) (i : Nat)
    (hi : i < l1.length) (hi2 : i < l2.length) :
    l2.get ⟨i, hi2⟩ = l1.get ⟨i, hi⟩ := by
  obtain ⟨t, rfl⟩ := h
  simp [List.get_eq_getElem, List.getElem_append_left, hi]

theorem alignFoldAux (rows : List (List (Option Alignment))) :
    ∀ acc A, List.foldlM (fun acc r => mergeAligns 0 acc r) acc rows = .ok A →
      acc <+: A
        ∧ (∀ r ∈ rows, r.length ≤ A.length
            ∧ ∀ i (hr : i < r.length) (hA : i < A.length),
                A.get ⟨i, hA⟩ = r.get ⟨i, hr⟩)
        ∧ ∀ i, acc.length ≤ i → i < A.length → ∃ r ∈ rows, i < r.length := by
  induction rows with
  | nil =>
    intro acc A h
    have hacc : acc = A := by
      have hok : (Except.ok acc : Except String (List (Option Alignment))) = .ok A := h
      injection hok
    subst hacc
    refine ⟨List.prefix_refl _, by simp, ?_⟩
    intro i h1 h2
    omega
  | cons r rest ih =>
    intro acc A h
    rw [List.foldlM_cons] at h
    match hm : mergeAligns 0 acc r with
    | .error e =>
      rw [hm] at h
      cases h
    | .ok mid =>
      rw [hm] at h
      have h' : List.foldlM (fun acc r => mergeAligns 0 acc r) mid rest = .ok A := h
      obtain ⟨hm1, hm2, hm3⟩ := mergeAligns_ok r 0 acc mid hm
      obtain ⟨ih1, ih2, ih3⟩ := ih mid A h'
      have hmidA : mid.length ≤ A.length := ih1.length_le
      refine ⟨hm1.trans ih1, ?_, ?_⟩
      · intro r' hr'
        rcases List.mem_cons.mp hr' with rfl | hr'
        · constructor
          · omega
          · intro i hri hAi
            have hmid : i < mid.length := by omega
            rw [prefix_get ih1 i hmid hAi]
            exact hm3 i hri hmid
        · exact ih2 r' hr'
      · intro i hacc hA
        by_cases hmidlen : i < mid.length
        · have hir : i < r.length := by omega
          exact ⟨r, List.mem_cons_self r rest, hir⟩
        · obtain ⟨r', hr', hi⟩ := ih3 i (by omega) hA
          exact ⟨r', List.mem_cons_of_mem _ hr', hi⟩

/-- C8: the alignment accumulation of `extractRows` over the rows' cell
alignments — each read by `getCellAlignment` from the cell's `text-align`
style declaration — assigns column `i` the alignment of the first row that
has a cell at index `i`, every other row's cell at `i` must carry the same
alignment, and any disagreement between two rows at a shared column index
makes the conversion fail with an error instead of producing a result. -/
theorem alignment_consistency (rows : List (List (Option String))) :
    (∀ A, alignFold (rows.map (List.map getCellAlignment)) = .ok A →
        (∀ r ∈ rows.map (List.map getCellAlignment),
            r.length ≤ A.length
              ∧ ∀ i (hr : i < r.length) (hA : i < A.length),
                  A.get ⟨i, hA⟩ = r.get ⟨i, hr⟩)
          ∧ ∀ i (hA : i < A.length),
              ∃ r, (rows.map (List.map getCellAlignment)).find?
                    (fun r => decide (i < r.length)) = some r
                ∧ ∃ (hr : i < r.length), A.get ⟨i, hA⟩ = r.get ⟨i, hr⟩)
      ∧ ((∃ r1 ∈ rows.map (List.map getCellAlignment),
            ∃ r2 ∈ rows.map (List.map getCellAlignment),
            ∃ i, ∃ (h1 : i < r1.length) (h2 : i < r2.length),
              r1.get ⟨i, h1⟩ ≠ r2.get ⟨i, h2⟩) →
          ∃ e, alignFold (rows.map (List.map getCellAlignment)) = .error e) := by
  constructor
  · intro A hA
    obtain ⟨_, h2, h3⟩ := alignFoldAux (rows.map (List.map getCellAlignment)) [] A hA
    refine ⟨h2, ?_⟩
    intro i hiA
    obtain ⟨r, hrmem, hir⟩ := h3 i (by simp) hiA
    have hsome : ((rows.map (List.map getCellAlignment)).find?
        (fun r => decide (i < r.length))).isSome := by
      rw [List.find?_isSome]
      exact ⟨r, hrmem, by simpa using hir⟩
    obtain ⟨r0, hr0⟩ := Option.isSome_iff_exists.mp hsome
    have hmem0 := List.mem_of_find?_eq_some hr0
    have hp0 : i < r0.length := by
      have := List.find?_some hr0
      simpa using this
    exact ⟨r0, hr0, hp0, (h2 r0 hmem0).2 i hp0 hiA⟩
  · rintro ⟨r1, h1m, r2, h2m, i, hi1, hi2, hne⟩
    match hfold : alignFold (rows.map (List.map getCellAlignment)) with
    | .error e => exact ⟨e, rfl⟩
    | .ok A =>
      obtain ⟨_, h2, _⟩ := alignFoldAux (rows.map (List.map getCellAlignment)) [] A hfold
      have hA1 : i < A.length := by
        have := (h2 r1 h1m).1
        omega
      have e1 := (h2 r1 h1m).2 i hi1 hA1
      have e2 := (h2 r2 h2m).2 i hi2 hA1
      exact absurd (e1.symm.trans e2) hne

/-- Witness for C8: two single-cell rows with conflicting `text-align`
declarations make the fold fail. -/
theorem alignment_consistency_witness :
    ∃ e, alignFold ([[some "text-align: left"], [some "text-align: right"]].map
        (List.map getCellAlignment)) = .error e :=
  (alignment_consistency [[some "text-align: left"], [some "text-align: right"]]).2
    ⟨[some Alignment.left], by decide, [some Alignment.right], by decide,
      0, by decide, by decide, by decide⟩

theorem foldlM_merge_append (l1 l2 : List (List (Option Alignment)))
    (a mid fin : List (Option Alignment))
    (h1 : List.foldlM (fun acc r => mergeAligns 0 acc r) a l1 = .ok mid)
    (h2 : List.foldlM (fun acc r => mergeAligns 0 acc r) mid l2 = .ok fin) :
    List.foldlM (fun acc r => mergeAligns 0 acc r) a (l1 ++ l2) = .ok fin := by
  induction l1 generalizing a with
  | nil =>
    have hmid : a = mid := by
      have hok : (Except.ok a : Except String (List (Option Alignment))) = .ok mid := h1
      injection hok
    subst hmid
    simpa using h2
  | cons r rest ih =>
    rw [List.foldlM_cons] at h1
    rw [List.cons_append, List.foldlM_cons]
    match hm : mergeAligns 0 a r with
    | .error e =>
      rw [hm] at h1
      cases h1
    | .ok nxt =>
      rw [hm] at h1
      exact ih nxt h1

/-- The alignments accumulated while handling one dequeued node's children
are exactly a `mergeAligns` fold over the `tr` children's alignment rows. -/
theorem handleChildren_alignFold (cs : List TNode) :
    ∀ (aligns : List (Option Alignment)) (rows : List (List String)) q a' r',
      handleChildren cs aligns rows = .ok (q, a', r') →
      ∃ rals, List.foldlM (fun acc r => mergeAligns 0 acc r) aligns rals = .ok a' := by
  induction cs with
  | nil =>
    intro aligns rows q a' r' h
    simp only [handleChildren] at h
    cases h
    exact ⟨[], rfl⟩
  | cons c rest ih =>
    intro aligns rows q a' r' h
    match c, h with
    | .elem tag attrs repl children, h =>
      simp only [handleChildren] at h
      by_cases htr : (tag == "tr") = true
      · rw [if_pos htr] at h
        match hec : extractColumns children with
        | .error e =>
          simp only [hec] at h
          cases h
        | .ok colsRals =>
          simp only [hec] at h
          match hma : mergeAligns 0 aligns colsRals.2 with
          | .error e =>
            simp only [hma] at h
            cases h
          | .ok mid =>
            simp only [hma] at h
            obtain ⟨rals, hfold⟩ := ih mid (rows ++ [colsRals.1]) q a' r' h
            refine ⟨colsRals.2 :: rals, ?_⟩
            rw [List.foldlM_cons, hma]
            exact hfold
      · rw [if_neg htr] at h
        match hhc : handleChildren rest aligns rows with
        | .error e =>
          simp only [hhc] at h
          cases h
        | .ok qar =>
          simp only [hhc] at h
          cases h
          exact ih aligns rows qar.1 qar.2.1 qar.2.2 (by rw [hhc])
    | .text d, h =>
      simp only [handleChildren] at h
      exact ih aligns rows q a' r' h
    | .comment d, h =>
      simp only [handleChildren] at h
      exact ih aligns rows q a' r' h

/-- The BFS loop of `extractRows` accumulates its alignments as a
`mergeAligns` fold over the alignment rows of the `tr` elements it visits —
the bridge between `extractRows` and `alignFold`. -/
theorem extractLoop_alignFold (n : Nat) :
    ∀ (queue : List TNode), tlistSize queue ≤ n →
      ∀ (aligns : List (Option Alignment)) (rows : List (List String)) A R,
        extractLoop queue aligns rows = .ok (A, R) →
        ∃ rals, List.foldlM (fun acc r => mergeAligns 0 acc r) aligns rals = .ok A := by
  induction n using Nat.strong_induction_on with
  | _ n ihn =>
    intro queue hsize aligns rows A R h
    match queue, h with
    | [], h =>
      simp only [extractLoop] at h
      cases h
      exact ⟨[], rfl⟩
    | t :: rest, h =>
      rw [extractLoop] at h
      match hh : handleChildren (tchildren t) aligns rows with
      | .error e =>
        rw [hh] at h
        cases h
      | .ok qar =>
        rw [hh] at h
        have hq : tlistSize qar.1 ≤ tlistSize (tchildren t) :=
          handleChildren_size (tchildren t) aligns rows qar.1 qar.2.1 qar.2.2 (by rw [hh])
        have ht := tchildren_size t
        have hdec : tlistSize (rest ++ qar.1) < tlistSize (t :: rest) := by
          rw [tlistSize_append]
          simp only [tlistSize]
          omega
        have hlt : tlistSize (rest ++ qar.1) < n := by
          omega
        cases hn : n with
        | zero => omega
        | succ m =>
          obtain ⟨rals2, hf2⟩ :=
            ihn m (by omega) (rest ++ qar.1) (by omega) qar.2.1 qar.2.2 A R h
          obtain ⟨rals1, hf1⟩ :=
            handleChildren_alignFold (tchildren t) aligns rows qar.1 qar.2.1 qar.2.2
              (by rw [hh])
          exact ⟨rals1 ++ rals2, foldlM_merge_append rals1 rals2 aligns qar.2.1 A hf1 hf2⟩

/-- `extractRows` returns alignments that are the trailing-null trim of an
`alignFold` result over the traversed rows' alignments. -/
theorem extractRows_alignFold (t : TNode)
    (ar : List (Option Alignment) × List (List String))
    (h : extractRows t = .ok ar) :
    ∃ rals preA, alignFold rals = .ok preA
      ∧ ar.1 = trimAligns ((ar.2.headD []).length) preA := by
  unfold extractRows at h
  match hl : extractLoop [t] [] [] with
  | .error e =>
    simp only [hl] at h
    cases h
  | .ok ar0 =>
    simp only [hl] at h
    match hh : ar0.2.head? with
    | none =>
      simp only [hh] at h
      cases h
    | some hdr =>
      simp only [hh] at h
      cases h
      obtain ⟨rals, hf⟩ :=
        extractLoop_alignFold (tlistSize [t]) [t] (Nat.le_refl _) [] [] ar0.1 ar0.2
          (by rw [hl])
      refine ⟨rals, ar0.1, hf, ?_⟩
      have hhd : ar0.2.headD [] = hdr := by
        rw [List.headD_eq_head?_getD, hh]
        rfl
      rw [hhd]

/-! ## Table layout (src/tables.ts)

Modelled from the spec's collaborator interface: the display-width function
(npm `wcwidth`) counts wide characters as two columns and every other
character as one; `isWideChar` covers the standard East-Asian wide ranges.
The claims depend only on wide characters having width 2. -/

def isWideChar (c : Char) : Bool :=
  (decide (0x1100 ≤ c.toNat) && decide (c.toNat ≤ 0x115F))
    || (decide (0x2E80 ≤ c.toNat) && decide (c.toNat ≤ 0xA4CF))
    || (decide (0xAC00 ≤ c.toNat) && decide (c.toNat ≤ 0xD7A3))
    || (decide (0xF900 ≤ c.toNat) && decide (c.toNat ≤ 0xFAFF))
    || (decide (0xFE30 ≤ c.toNat) && decide (c.toNat ≤ 0xFE6F))
    || (decide (0xFF00 ≤ c.toNat) && decide (c.toNat ≤ 0xFF60))
    || (decide (0xFFE0 ≤ c.toNat) && decide (c.toNat ≤ 0xFFE6))

def wcwidth (s : String) : Nat :=
  (s.data.map (fun c => if isWideChar c then 2 else 1)).sum

/-- `pad(text, length, char)` of src/tables.ts, text first (right padding):
`char.repeat(padlength)` throws a `RangeError` on a negative count, modelled
as `none`. -/
def padEnd (text : String) (len : Int) (c : Char) : Option String :=
  let padlength : Int := len - wcwidth text
  if padlength < 0 then none
  else some (text ++ String.mk (List.replicate padlength.toNat c))

/-- `pad(length, text, char)`, number first (the `invert` branch: left
padding). -/
def padStart (len : Int) (text : String) (c : Char) : Option String :=
  let padlength : Int := len - wcwidth text
  if padlength < 0 then none
  else some (String.mk (List.replicate padlength.toNat c) ++ text)

/-- `Array.join` with the separator, as `joinColumns` uses it. -/
def joinSep (sep : String) : List String → String
  | [] => ""
  | [x] => x
  | x :: rest => x ++ sep ++ joinSep sep rest

/-- `joinColumns(columns)`: ` | `-joined, or a leading `| ` for a
single-column table; an empty list stringifies JavaScript's `undefined`. -/
def joinColumns (columns : List String) : String :=
  if columns.length > 1 then joinSep " | " columns
  else "| " ++ (columns.head?.getD "undefined")

/-- `Math.floor(x / 2)` on an integer. -/
def jsFloorHalf (x : Int) : Int :=
  Int.fdiv x 2

/-- `Math.ceil(x / 2)` on an integer. -/
def jsCeilHalf (x : Int) : Int :=
  -(Int.fdiv (-x) 2)

/-- One cell of the `formatRow` map: the `switch` over `alignments[i]`.
A missing width (`columnWidths[i]` past the end) follows the JavaScript
`NaN` arithmetic: `repeat(NaN)` is empty, so the cell passes through
unchanged in the `center`/default branches, while the `right` branch's
swapped `pad(undefined, column)` stringifies `undefined`. -/
def padCell (alignments : List (Option Alignment)) (columnWidths : List Nat)
    (i : Nat) (column : String) : Option String :=
  match (alignments.get? i).getD none with
  | some .right =>
    match columnWidths.get? i with
    | some w => padStart w column ' '
    | none => some "undefined"
  | some .center =>
    match columnWidths.get? i with
    | some w =>
      let whitespace : Int := (w : Int) - column.length
      match padStart (jsFloorHalf whitespace + column.length) column ' ' with
      | some leftPadded =>
        padEnd leftPadded (jsCeilHalf whitespace + leftPadded.length) ' '
      | none => none
    | none => some column
  | _ =>
    match columnWidths.get? i with
    | some w => padEnd column w ' '
    | none => some column

/-- The indexed cell map of `formatRow`. -/
def formatCells (alignments : List (Option Alignment)) (columnWidths : List Nat) :
    Nat → List String → Option (List String)
  | _, [] => some []
  | i, c :: rest =>
    match padCell alignments columnWidths i c with
    | none => none
    | some p => (formatCells alignments columnWidths (i + 1) rest).map (p :: ·)

/-- `formatRow(row, alignments, columnWidths)` (src/tables.ts). -/
def formatRow (row : List String) (alignments : List (Option Alignment))
    (columnWidths : List Nat) : Option String :=
  (formatCells alignments columnWidths 0 row).map
    (fun padded => jsTrimEnd (joinColumns padded))

/-- `formatHeaderSeparator(alignments, columnWidths)` (src/tables.ts).  A
missing width follows the JavaScript `NaN` arithmetic (`repeat(NaN)` is
empty); a width smaller than the dashes subtracted makes `repeat` throw. -/
def formatHeaderSeparator (alignments : List (Option Alignment))
    (columnWidths : List Nat) : Option String :=
  let sepCell : Nat → Option Alignment → Option String := fun i a =>
    match columnWidths.get? i with
    | some w =>
      match a with
      | some .center => (padEnd "" ((w : Int) - 2) '-').map (fun m => ":" ++ m ++ ":")
      | some .left => (padEnd "" ((w : Int) - 1) '-').map (fun m => ":" ++ m)
      | some .right => (padEnd "" ((w : Int) - 1) '-').map (fun m => m ++ ":")
      | none => padEnd "" (w : Int) '-'
    | none =>
      match a with
      | some .center => some "::"
      | some .left => some ":"
      | some .right => some ":"
      | none => some ""
  (List.range alignments.length).mapM
      (fun i => sepCell i ((alignments.get? i).getD none))
    |>.map joinColumns

/-- The per-column update of `getColumnWidths`'s `forEach`: indices past
either list are untouched. -/
def updateWidths : List Nat → List String → List Nat
  | [], _ => []
  | ws, [] => ws
  | w :: ws, c :: cs => max (wcwidth c) w :: updateWidths ws cs

/-- `getColumnWidths(rows)` (src/tables.ts): start from the header row's
literal character lengths, then fold the display-width maximum over every
row (the header included). -/
def getColumnWidths (rows : List (List String)) : List Nat :=
  rows.foldl updateWidths ((rows.headD []).map String.length)

/-- The maximum display width of column `i` over the rows that reach it. -/
def colMaxW (i : Nat) : List (List String) → Nat
  | [] => 0
  | r :: rest =>
    match r.get? i with
    | some c => max (wcwidth c) (colMaxW i rest)
    | none => colMaxW i rest

/-- The cell padding the claim describes: the cell is padded to the column
width measured in display width — right-padded for left/default alignment,
left-padded for right alignment (both hold for wide-character cells too,
since the source `pad` subtracts `wcwidth`) — while the centre split, which
the source computes from the raw character count, is stated in character
units and is claimed only for cells whose display width equals their
character count. -/
def padCellSpec (a : Option Alignment) (w : Nat) (c : String) : String :=
  match a with
  | some .right => String.mk (List.replicate (w - wcwidth c) ' ') ++ c
  | some .center =>
    String.mk (List.replicate ((w - c.length) / 2) ' ') ++ c
      ++ String.mk (List.replicate ((w - c.length) - (w - c.length) / 2) ' ')
  | _ => c ++ String.mk (List.replicate (w - wcwidth c) ' ')

def formatCellsSpec (alignments : List (Option Alignment)) (columnWidths : List Nat) :
    Nat → List String → List String
  | _, [] => []
  | i, c :: rest =>
    padCellSpec ((alignments.get? i).getD none) ((columnWidths.get? i).getD 0) c
      :: formatCellsSpec alignments columnWidths (i + 1) rest

/-- The row layout the claim describes: every cell padded per its column's
alignment and width, joined with ` | ` (leading `| ` for one column),
trailing whitespace trimmed. -/
def formatRowSpec (row : List String) (alignments : List (Option Alignment))
    (columnWidths : List Nat) : String :=
  jsTrimEnd (joinColumns (formatCellsSpec alignments columnWidths 0 row))

/-- A cell fits its column.  The column width must exist and accommodate the
cell's display width; only for a `center`-aligned column — whose padding
arithmetic in the source mixes the raw `column.length` into display-width
subtraction — must the cell's display width additionally equal its character
count. -/
def cellFitsB (alignments : List (Option Alignment)) (columnWidths : List Nat)
    (i : Nat) (c : String) : Bool :=
  match columnWidths.get? i with
  | some w =>
    match (alignments.get? i).getD none with
    | some .center => decide (c.length ≤ w) && (wcwidth c == c.length)
    | _ => decide (wcwidth c ≤ w)
  | none => false

theorem wcwidth_append (a b : String) :
    wcwidth (a ++ b) = wcwidth a + wcwidth b := by
  simp [wcwidth, String.data_append]

theorem wcwidth_replicate_space (n : Nat) :
    wcwidth (String.mk (List.replicate n ' ')) = n := by
  simp [wcwidth, List.map_replicate, show isWideChar ' ' = false from rfl]

theorem string_mk_length (l : List Char) : (String.mk l).length = l.length := rfl

theorem padCell_spec (alignments : List (Option Alignment)) (columnWidths : List Nat)
    (i : Nat) (c : String)
    (h : cellFitsB alignments columnWidths i c = true) :
    padCell alignments columnWidths i c
      = some (padCellSpec ((alignments.get? i).getD none)
          ((columnWidths.get? i).getD 0) c) := by
  unfold cellFitsB at h
  match hw : columnWidths.get? i with
  | none =>
    rw [hw] at h
    cases h
  | some w =>
    rw [hw] at h
    match halign : (alignments.get? i).getD none with
    | some .right =>
      simp only [halign] at h
      have hle : wcwidth c ≤ w := of_decide_eq_true h
      simp only [padCell, padCellSpec, hw, halign, Option.getD_some]
      simp only [padStart]
      rw [if_neg (by omega)]
      have ht : ((w : Int) - (wcwidth c : Int)).toNat = w - wcwidth c := by omega
      rw [ht]
    | some .center =>
      simp only [halign] at h
      rw [Bool.and_eq_true] at h
      have hlen : c.length ≤ w := of_decide_eq_true h.1
      have hwc : wcwidth c = c.length := by
        have hb := h.2
        simpa using hb
      simp only [padCell, padCellSpec, hw, halign, Option.getD_some]
      have hea : ((w : Int) - (c.length : Int)) = ((w - c.length : Nat) : Int) := by
        omega
      rw [hea]
      have hfd : jsFloorHalf ((w - c.length : Nat) : Int)
          = (((w - c.length) / 2 : Nat) : Int) := by
        unfold jsFloorHalf
        rw [Int.fdiv_eq_ediv _ (by norm_num)]
        omega
      rw [hfd]
      simp only [padStart, hwc]
      rw [if_neg (by omega)]
      have hpad1 : ((((w - c.length) / 2 : Nat) : Int) + (c.length : Int)
          - (c.length : Int)).toNat = (w - c.length) / 2 := by omega
      rw [hpad1]
      simp only [padEnd]
      have hceil : jsCeilHalf ((w - c.length : Nat) : Int)
          = ((w - c.length : Nat) : Int) - (((w - c.length) / 2 : Nat) : Int) := by
        unfold jsCeilHalf
        rw [Int.fdiv_eq_ediv _ (by norm_num)]
        omega
      have hlp_wc : wcwidth (String.mk (List.replicate ((w - c.length) / 2) ' ') ++ c)
          = (w - c.length) / 2 + c.length := by
        rw [wcwidth_append, wcwidth_replicate_space, hwc]
      have hlp_len : (String.mk (List.replicate ((w - c.length) / 2) ' ') ++ c).length
          = (w - c.length) / 2 + c.length := by
        rw [String.length_append, string_mk_length, List.length_replicate]
      rw [hceil, hlp_wc, hlp_len]
      rw [if_neg (by omega)]
      have ht2 : (((w - c.length : Nat) : Int) - (((w - c.length) / 2 : Nat) : Int)
          + (((w - c.length) / 2 + c.length : Nat) : Int)
          - (((w - c.length) / 2 + c.length : Nat) : Int)).toNat
          = (w - c.length) - (w - c.length) / 2 := by omega
      rw [ht2, String.append_assoc]
    | some .left =>
      simp only [halign] at h
      have hle : wcwidth c ≤ w := of_decide_eq_true h
      simp only [padCell, padCellSpec, hw, halign, Option.getD_some]
      simp only [padEnd]
      rw [if_neg (by omega)]
      have ht : ((w : Int) - (wcwidth c : Int)).toNat = w - wcwidth c := by omega
      rw [ht]
    | none =>
      simp only [halign] at h
      have hle : wcwidth c ≤ w := of_decide_eq_true h
      simp only [padCell, padCellSpec, hw, halign, Option.getD_some]
      simp only [padEnd]
      rw [if_neg (by omega)]
      have ht : ((w : Int) - (wcwidth c : Int)).toNat = w - wcwidth c := by omega
      rw [ht]

theorem formatCells_spec (alignments : List (Option Alignment))
    (columnWidths : List Nat) (row : List String) :
    ∀ (i0 : Nat),
      (∀ j (hj : j < row.length),
        cellFitsB alignments columnWidths (i0 + j) (row.get ⟨j, hj⟩) = true) →
      formatCells alignments columnWidths i0 row
        = some (formatCellsSpec alignments columnWidths i0 row) := by
  induction row with
  | nil =>
    intro i0 _
    rfl
  | cons c rest ih =>
    intro i0 hfit
    have hc : cellFitsB alignments columnWidths i0 c = true := by
      have := hfit 0 (by simp)
      simpa using this
    have hrest : ∀ j (hj : j < rest.length),
        cellFitsB alignments columnWidths (i0 + 1 + j) (rest.get ⟨j, hj⟩) = true := by
      intro j hj
      have := hfit (j + 1) (by simpa using Nat.succ_lt_succ hj)
      have harith : i0 + (j + 1) = i0 + 1 + j := by omega
      rw [harith] at this
      simpa using this
    simp only [formatCells, formatCellsSpec, padCell_spec alignments columnWidths i0 c hc,
      ih (i0 + 1) hrest, Option.map_some']

theorem updateWidths_get? (ws : List Nat) :
    ∀ (cs : List String) (i : Nat),
      (updateWidths ws cs)[i]?
        = (ws[i]?).map (fun w =>
            match cs[i]? with
            | some c => max (wcwidth c) w
            | none => w) := by
  induction ws with
  | nil =>
    intro cs i
    cases cs <;> simp [updateWidths]
  | cons w ws ih =>
    intro cs i
    cases cs with
    | nil => simp [updateWidths]
    | cons c cs =>
      cases i with
      | zero => simp [updateWidths]
      | succ i => simp [updateWidths, ih cs i]

theorem foldl_updateWidths (rows : List (List String)) :
    ∀ (ws : List Nat) (i : Nat),
      ((rows.foldl updateWidths ws)[i]?)
        = (ws[i]?).map (fun w => max w (colMaxW i rows)) := by
  induction rows with
  | nil =>
    intro ws i
    simp only [List.foldl_nil, colMaxW]
    match ws[i]? with
    | none => rfl
    | some w => simp
  | cons r rest ih =>
    intro ws i
    simp only [List.foldl_cons]
    rw [ih (updateWidths ws r) i, updateWidths_get? ws r i]
    simp only [colMaxW, Option.map_map]
    match hws : ws[i]?, hr : r[i]? with
    | none, _ =>
      simp [hr]
    | some w, some cx =>
      have hr' : r.get? i = some cx := by
        rw [List.get?_eq_getElem?]
        exact hr
      simp only [hr, Option.map_some', Function.comp]
      congr 1
      rw [hr']
      simp [Nat.max_comm, Nat.max_assoc, Nat.max_left_comm]
    | some w, none =>
      simp [hr]

/-- C7 counterexample: the single-cell table `[["漢"]]` has column width 2
(display width of the wide character), but centring that cell makes
`formatRow` fail — the centre branch mixes the raw character count into the
display-width padding, producing the negative repeat count on which
JavaScript's `String.repeat` throws — instead of padding the cell to its
column width as the claim states. -/
theorem table_pad_counterexample :
    getColumnWidths [["漢"]] = [2]
      ∧ formatRow ["漢"] [some Alignment.center] [2] = none := by
  constructor
  · decide
  · decide

/-- C7 (amended): `getColumnWidths` gives every header-row column the
maximum display width over all rows, floored at the header cell's literal
character length; and `formatRow` pads each cell that fits its column to the
column width measured in display width — right-padded for left/default
alignment and left-padded for right alignment, wide-character cells
included, since the source `pad` subtracts `wcwidth` — with centre padding
split with the rounded-down half on the left, claimed only for centred cells
whose display width equals their character count because the source's centre
branch computes its split from the raw `column.length`; the padded cells are
joined with ` | ` (a leading `| ` for single-column tables) and trailing
whitespace is trimmed.  A centred cell with wide characters can instead be
under-padded or fail (the counterexample). -/
theorem table_layout_spec (rows : List (List String)) (row : List String)
    (alignments : List (Option Alignment)) (columnWidths : List Nat)
    (hrows : rows ≠ [])
    (hfit : ∀ j (hj : j < row.length),
        cellFitsB alignments columnWidths j (row.get ⟨j, hj⟩) = true) :
    (∀ i, (getColumnWidths rows).get? i
        = ((rows.headD []).get? i).map (fun hc => max hc.length (colMaxW i rows)))
      ∧ formatRow row alignments columnWidths
          = some (formatRowSpec row alignments columnWidths) := by
  constructor
  · intro i
    unfold getColumnWidths
    simp only [List.get?_eq_getElem?]
    rw [foldl_updateWidths rows ((rows.headD []).map String.length) i]
    rw [List.getElem?_map]
    rw [Option.map_map]
    rfl
  · unfold formatRow formatRowSpec
    rw [formatCells_spec alignments columnWidths row 0 (by simpa using hfit)]
    rfl

/-- Witness for C7: a row holding a right-aligned wide-character cell (padded
to display width 4) and a centred ASCII cell. -/
theorem table_layout_spec_witness :
    (∀ i, (getColumnWidths [["ab", "c"], ["x", "dddd"]]).get? i
        = (([["ab", "c"], ["x", "dddd"]].headD []).get? i).map
            (fun hc => max hc.length (colMaxW i [["ab", "c"], ["x", "dddd"]])))
      ∧ formatRow ["漢", "c"] [some Alignment.right, some Alignment.center] [4, 3]
          = some (formatRowSpec ["漢", "c"]
              [some Alignment.right, some Alignment.center] [4, 3]) :=
  table_layout_spec [["ab", "c"], ["x", "dddd"]] ["漢", "c"]
    [some Alignment.right, some Alignment.center] [4, 3] (by decide) (by decide)

end TidyMarkdown
